import Mathlib

/-!
# Verification of the ndjson-preview transformation and filtering core

Shallow embedding of the per-line JSON transformation engine of the
ndjson-preview extension:

* `src/utils/jsonUtils.ts` — `reorderJsonKeys`, `applyCustomOrder`,
  `getNestedValue`, `decodeUriStrings`;
* `src/utils/filterUtils.ts` — `matchesAllFilters`, `filterLines`;
* `src/preview/previewPanel.ts` — the transformation pipeline in
  `PreviewPanel.update`.

Modelling conventions:

* JavaScript objects are modelled as insertion-ordered association lists
  `List (String × Json)`; `Object.keys` is the list of first components,
  object spread `{...a, ...b}` of records with disjoint keys is list append,
  and property assignment `rec[k] = v` on a record is `recInsert`
  (overwrite in place when the key exists, append otherwise). The
  engines' special enumeration order for integer-like property keys
  (ascending, ahead of all string keys) is outside the model: keys are
  taken in pure insertion order, as the specification's data model
  ("insertion-order-significant keys") states.
* JSON numbers are modelled as arbitrary-precision integers (`Int`);
  numeric literals with fraction or exponent parts, and IEEE-754 rounding
  and formatting, are outside the model.
* `undefined` is represented by `Option.none` where it can occur
  (property lookup, path resolution); it is not a `Json` value, matching
  the fact that `JSON.parse` never produces it.
* Strings are Lean `String`s (sequences of unicode scalar values);
  JavaScript strings are UTF-16 code-unit sequences, so lone surrogates
  (reachable only through exotic inputs) are outside the model, and
  `"abc".length`-style code-unit counts coincide with scalar counts on
  the BMP-only strings considered here.
* Properties inherited from `Object.prototype` / `Array.prototype`
  (function values such as `toString`, `map`) are modelled as absent,
  since function values never arise from `JSON.parse` data; the own
  property `length` of arrays (and of strings) IS modelled, since member
  access on arrays reaches it.
-/

set_option maxHeartbeats 1000000

namespace NdjsonPreview

/-- The JSON value universe moved through every engine: null, booleans,
numbers (modelled as integers), strings, arrays, and insertion-ordered
objects. -/
inductive Json where
  | null : Json
  | bool (b : Bool) : Json
  | num (n : Int) : Json
  | str (s : String) : Json
  | arr (elems : List Json) : Json
  | obj (fields : List (String × Json)) : Json
  deriving Repr, Inhabited

namespace Json

/-- `value !== null && typeof value === 'object'` — true exactly for
arrays and (non-null) objects. -/
def isContainer : Json → Bool
  | .arr _ => true
  | .obj _ => true
  | _ => false

end Json

/-- Property read `record[key]` on an insertion-ordered record:
the value of the first binding of `key`, or `none` (undefined). -/
def findField : List (String × Json) → String → Option Json
  | [], _ => none
  | (k, v) :: rest, key => if k = key then some v else findField rest key

/-- Property write `record[key] = v` on an insertion-ordered record:
overwrite in place when the key is present, append otherwise. -/
def recInsert (fields : List (String × Json)) (key : String) (v : Json) :
    List (String × Json) :=
  if (fields.map Prod.fst).contains key then
    fields.map fun kv => if kv.1 = key then (key, v) else kv
  else fields ++ [(key, v)]

mutual

/-- `reorderJsonKeys` from `jsonUtils.ts`: primitives pass through,
arrays map element-wise, and each object is rebuilt as its
primitive-valued fields (in original order, values unchanged) followed by
its container-valued fields (in original order, values recursively
reordered), mirroring the two-record build and final spread. -/
def reorderJsonKeys : Json → Json
  | .null => .null
  | .bool b => .bool b
  | .num n => .num n
  | .str s => .str s
  | .arr xs => .arr (reorderElems xs)
  | .obj fs => .obj ((fs.filter fun kv => !kv.2.isContainer) ++ reorderConts fs)

/-- The `obj.map(item => reorderJsonKeys(item))` traversal of an array. -/
def reorderElems : List Json → List Json
  | [] => []
  | x :: xs => reorderJsonKeys x :: reorderElems xs

/-- The `objects` record built by the key loop of `reorderJsonKeys`:
container-valued fields in original order, values recursively reordered. -/
def reorderConts : List (String × Json) → List (String × Json)
  | [] => []
  | (k, v) :: fs =>
      if v.isContainer then (k, reorderJsonKeys v) :: reorderConts fs
      else reorderConts fs

end

/-- The `ordered` record of `applyCustomOrder`: for each key of `order`
that is an own key of the record, assign the record's (already
recursed, see `acoFields`) value into the accumulating record by
property assignment. -/
def acoOrderedSel (rfs : List (String × Json)) :
    List String → List (String × Json) → List (String × Json)
  | [], acc => acc
  | key :: rest, acc =>
      match findField rfs key with
      | some v => acoOrderedSel rfs rest (recInsert acc key v)
      | none => acoOrderedSel rfs rest acc

mutual

/-- `applyCustomOrder` from `jsonUtils.ts`: primitives pass through,
arrays map element-wise with the same order list, and each object is
rebuilt as the `ordered` record (keys of `order` that exist in the
record, built by property assignment) followed by the `remaining`
record (fields whose key is not in `order`, in original order).
Container values are recursed with the same order list; primitive
values are copied. The source recurses on `record[key]` inside the two
loops; here the per-field recursion is factored into `acoFields`
(which transforms each value exactly as the loop bodies do, keys and
order untouched) so that the recursion is structural, and the two loops
then select from the transformed record. -/
def applyCustomOrder : Json → List String → Json
  | .null, _ => .null
  | .bool b, _ => .bool b
  | .num n, _ => .num n
  | .str s, _ => .str s
  | .arr xs, order => .arr (acoElems xs order)
  | .obj fs, order =>
      .obj (acoOrderedSel (acoFields fs order) order [] ++
        (acoFields fs order).filter fun kv => !order.contains kv.1)

/-- The `obj.map(item => applyCustomOrder(item, order))` traversal. -/
def acoElems : List Json → List String → List Json
  | [], _ => []
  | x :: xs, order => applyCustomOrder x order :: acoElems xs order

/-- The loop bodies' value transform, per field: a container value is
recursed with the same order list, a primitive value is copied. -/
def acoFields : List (String × Json) → List String → List (String × Json)
  | [], _ => []
  | (k, v) :: fs, order =>
      (k, if v.isContainer then applyCustomOrder v order else v) :: acoFields fs order

end

/-- The whitespace set of JavaScript's `trim`/`trimStart`
(WhiteSpace and LineTerminator of the ECMAScript grammar). -/
def isJsWhitespace (c : Char) : Bool :=
  c = ' ' || c = '\t' || c = '\n' || c = '\r' ||
  c.toNat = 0x0B || c.toNat = 0x0C || c.toNat = 0xA0 || c.toNat = 0x1680 ||
  (0x2000 ≤ c.toNat && c.toNat ≤ 0x200A) || c.toNat = 0x2028 || c.toNat = 0x2029 ||
  c.toNat = 0x202F || c.toNat = 0x205F || c.toNat = 0x3000 || c.toNat = 0xFEFF

/-- JavaScript `String.prototype.trim`. -/
def jsTrim (s : String) : String :=
  ⟨((s.data.dropWhile isJsWhitespace).reverse.dropWhile isJsWhitespace).reverse⟩

/-- JavaScript `String.prototype.trimStart`. -/
def jsTrimStart (s : String) : String :=
  ⟨s.data.dropWhile isJsWhitespace⟩

/-- `key.split('.')` on the character list: the segments between the
dots, empty segments kept. -/
def splitDotAux : List Char → List Char → List String
  | [], acc => [⟨acc.reverse⟩]
  | '.' :: rest, acc => (⟨acc.reverse⟩ : String) :: splitDotAux rest []
  | c :: rest, acc => splitDotAux rest (c :: acc)

/-- JavaScript `key.split('.')`. -/
def jsSplitDot (s : String) : List String := splitDotAux s.data []

/-- The strings under which a JavaScript array (or string) exposes an
element: the canonical decimal form of a natural number (`"0"`, `"7"`,
but not `"01"` or `"+1"`). -/
def toCanonicalIndex (s : String) : Option Nat :=
  match s.data with
  | [] => none
  | ['0'] => some 0
  | '0' :: _ => none
  | ds =>
      if ds.all Char.isDigit then
        some (ds.foldl (fun acc c => acc * 10 + (c.toNat - '0'.toNat)) 0)
      else none

/-- One step of member access, `(value as Record<string, unknown>)[k]`:
own fields of objects, canonical indices and `length` of arrays and
strings; `none` is JavaScript `undefined`. -/
def jsGet : Json → String → Option Json
  | .obj fs, key => findField fs key
  | .arr xs, key =>
      if key = "length" then some (.num xs.length)
      else
        match toCanonicalIndex key with
        | some i => xs[i]?
        | none => none
  | .str s, key =>
      if key = "length" then some (.num s.length)
      else
        match toCanonicalIndex key with
        | some i => (s.data[i]?).map fun c => .str ⟨[c]⟩
        | none => none
  | _, _ => none

/-- The segment loop of `getNestedValue`: `null` (and `undefined`) are
never traversed into; otherwise one member access per segment. -/
def getNestedGo : List String → Option Json → Option Json
  | [], v => v
  | k :: ks, v =>
      match v with
      | none => none
      | some .null => none
      | some w => getNestedGo ks (jsGet w k)

/-- `getNestedValue` from `jsonUtils.ts`: split the dotted path on `.`
and walk the segments; `none` is the `undefined` sentinel. -/
def getNestedValue (obj : Json) (key : String) : Option Json :=
  getNestedGo (jsSplitDot key) (some obj)

mutual

/-- JavaScript `String(value)` on a JSON value: `"null"`, `"true"`,
`"false"`, decimal numbers, strings as-is, arrays comma-joined with
`null` elements rendered empty, and plain objects as
`"[object Object]"`. -/
def jsString : Json → String
  | .null => "null"
  | .bool b => if b then "true" else "false"
  | .num n => toString n
  | .str s => s
  | .arr xs => String.intercalate "," (jsStringElems xs)
  | .obj _ => "[object Object]"

/-- `Array.prototype.join`'s element rendering: `null` becomes the
empty string, everything else its `String(·)` form. -/
def jsStringElems : List Json → List String
  | [] => []
  | .null :: xs => "" :: jsStringElems xs
  | x :: xs => jsString x :: jsStringElems xs

end

/-- A user filter: a dotted path and the string the resolved value must
stringify to. -/
structure Filter where
  key : String
  value : String
  deriving Repr

/-- `matchesAllFilters` from `filterUtils.ts`: every filter's path must
resolve (not `undefined`) and the resolved value's `String(·)` form must
equal the filter value; the first failure aborts. -/
def matchesAllFilters (json : Json) (filters : List Filter) : Bool :=
  match filters with
  | [] => true
  | f :: rest =>
      match getNestedValue json f.key with
      | none => false
      | some v => if jsString v = f.value then matchesAllFilters json rest else false

/-! ### `decodeURIComponent`

Model of the ECMAScript `decodeURIComponent` built-in: every `%` must
start a `%XY` hex escape (else `URIError`); the escaped bytes are
UTF-8-decoded (multi-byte sequences must be complete, well-formed,
shortest-form, and not encode surrogates, else `URIError`); unescaped
characters pass through. `none` models a thrown `URIError`. -/

/-- Value of a hex digit, upper or lower case. -/
def hexDigit? (c : Char) : Option Nat :=
  if c.isDigit then some (c.toNat - 48)
  else if 'a' ≤ c && c ≤ 'f' then some (c.toNat - 87)
  else if 'A' ≤ c && c ≤ 'F' then some (c.toNat - 55)
  else none

/-- First pass of `decodeURIComponent`: cut the input into literal
characters (`Sum.inl`) and `%XY`-escaped bytes (`Sum.inr`); a `%` not
followed by two hex digits is a `URIError`. -/
def pctTokens : List Char → Option (List (Char ⊕ Nat))
  | [] => some []
  | '%' :: h1 :: h2 :: rest =>
      match hexDigit? h1, hexDigit? h2 with
      | some a, some b => (pctTokens rest).map (Sum.inr (16 * a + b) :: ·)
      | _, _ => none
  | '%' :: _ => none
  | c :: rest => (pctTokens rest).map (Sum.inl c :: ·)

/-- A UTF-8 continuation byte. -/
def isContByte (b : Nat) : Bool := 0x80 ≤ b && b < 0xC0

/-- Second pass of `decodeURIComponent`: UTF-8-decode the escaped byte
runs (continuation bytes must themselves be escaped); literal characters
pass through. -/
def utf8DecodeTokens : List (Char ⊕ Nat) → Option (List Char)
  | [] => some []
  | .inl c :: rest => (utf8DecodeTokens rest).map (c :: ·)
  | .inr b :: rest =>
      if b < 0x80 then (utf8DecodeTokens rest).map (Char.ofNat b :: ·)
      else if 0xC2 ≤ b ∧ b ≤ 0xDF then
        match rest with
        | .inr b2 :: rest2 =>
            if isContByte b2 then
              (utf8DecodeTokens rest2).map
                (Char.ofNat ((b - 0xC0) * 0x40 + (b2 - 0x80)) :: ·)
            else none
        | _ => none
      else if 0xE0 ≤ b ∧ b ≤ 0xEF then
        match rest with
        | .inr b2 :: .inr b3 :: rest2 =>
            if isContByte b2 && isContByte b3 then
              let cp := (b - 0xE0) * 0x1000 + (b2 - 0x80) * 0x40 + (b3 - 0x80)
              if 0x800 ≤ cp ∧ ¬(0xD800 ≤ cp ∧ cp ≤ 0xDFFF) then
                (utf8DecodeTokens rest2).map (Char.ofNat cp :: ·)
              else none
            else none
        | _ => none
      else if 0xF0 ≤ b ∧ b ≤ 0xF4 then
        match rest with
        | .inr b2 :: .inr b3 :: .inr b4 :: rest2 =>
            if isContByte b2 && isContByte b3 && isContByte b4 then
              let cp := (b - 0xF0) * 0x40000 + (b2 - 0x80) * 0x1000 +
                (b3 - 0x80) * 0x40 + (b4 - 0x80)
              if 0x10000 ≤ cp ∧ cp ≤ 0x10FFFF then
                (utf8DecodeTokens rest2).map (Char.ofNat cp :: ·)
              else none
            else none
        | _ => none
      else none

/-- `decodeURIComponent(s)`; `none` models a thrown `URIError`. -/
def decodeURIComponent (s : String) : Option String :=
  (pctTokens s.data).bind fun ts => (utf8DecodeTokens ts).map fun cs => ⟨cs⟩

/-- The `try { decodeURIComponent(obj) } catch { obj }` of
`decodeUriStrings`: the decoded string, or the original on failure. -/
def tryDecodeURIComponent (s : String) : String :=
  (decodeURIComponent s).getD s

/-! ### `JSON.parse`

Model of `JSON.parse` as a recursive-descent parser over the character
list, with a character-count fuel (generous; each recursive step
consumes input). Duplicate object keys behave as JavaScript property
assignment (first position, last value, via `recInsert`). Numeric
literals with fraction or exponent parts are outside the integer number
model and rejected; lone-surrogate `\uXXXX` escapes are outside the
scalar string model and rejected. -/

/-- The JSON whitespace characters. -/
def isJsonWs (c : Char) : Bool := c = ' ' || c = '\t' || c = '\n' || c = '\r'

/-- Skip JSON whitespace. -/
def skipWs (cs : List Char) : List Char := cs.dropWhile isJsonWs

/-- Numeric value of a digit list, most significant first. -/
def digitsToNat (ds : List Char) : Nat :=
  ds.foldl (fun acc c => acc * 10 + (c.toNat - '0'.toNat)) 0

/-- Parse a JSON number literal (integer literals only; see module
note). -/
def parseNumber (cs : List Char) : Option (Int × List Char) :=
  let (sgn, body) := match cs with
    | '-' :: tl => (true, tl)
    | _ => (false, cs)
  match body with
  | [] => none
  | c :: _ =>
      if ¬ c.isDigit then none
      else
        let ds := body.takeWhile Char.isDigit
        let rest := body.dropWhile Char.isDigit
        if 1 < ds.length ∧ ds.headI = '0' then none
        else
          match rest with
          | '.' :: _ => none
          | 'e' :: _ => none
          | 'E' :: _ => none
          | _ =>
              let n : Int := digitsToNat ds
              some (if sgn then -n else n, rest)

/-- Value of the four hex digits of a `\u` escape. -/
def hex4Val (h1 h2 h3 h4 : Char) : Option Nat :=
  match hexDigit? h1, hexDigit? h2, hexDigit? h3, hexDigit? h4 with
  | some a, some b, some c, some d => some (((a * 16 + b) * 16 + c) * 16 + d)
  | _, _, _, _ => none

/-- Parse the body of a JSON string literal after the opening quote,
returning the content and the input after the closing quote. -/
def parseStringRest : List Char → Option (List Char × List Char)
  | [] => none
  | '"' :: rest => some ([], rest)
  | '\\' :: esc =>
      match esc with
      | '"' :: rest => (parseStringRest rest).map fun p => ('"' :: p.1, p.2)
      | '\\' :: rest => (parseStringRest rest).map fun p => ('\\' :: p.1, p.2)
      | '/' :: rest => (parseStringRest rest).map fun p => ('/' :: p.1, p.2)
      | 'b' :: rest => (parseStringRest rest).map fun p => ('\x08' :: p.1, p.2)
      | 'f' :: rest => (parseStringRest rest).map fun p => ('\x0C' :: p.1, p.2)
      | 'n' :: rest => (parseStringRest rest).map fun p => ('\n' :: p.1, p.2)
      | 'r' :: rest => (parseStringRest rest).map fun p => ('\r' :: p.1, p.2)
      | 't' :: rest => (parseStringRest rest).map fun p => ('\t' :: p.1, p.2)
      | 'u' :: h1 :: h2 :: h3 :: h4 :: rest1 =>
          match hex4Val h1 h2 h3 h4 with
          | none => none
          | some code =>
              if 0xD800 ≤ code ∧ code ≤ 0xDBFF then
                match rest1 with
                | '\\' :: 'u' :: g1 :: g2 :: g3 :: g4 :: rest3 =>
                    match hex4Val g1 g2 g3 g4 with
                    | some low =>
                        if 0xDC00 ≤ low ∧ low ≤ 0xDFFF then
                          let cp := 0x10000 + (code - 0xD800) * 0x400 + (low - 0xDC00)
                          (parseStringRest rest3).map fun p => (Char.ofNat cp :: p.1, p.2)
                        else none
                    | none => none
                | _ => none
              else if 0xDC00 ≤ code ∧ code ≤ 0xDFFF then none
              else (parseStringRest rest1).map fun p => (Char.ofNat code :: p.1, p.2)
      | _ => none
  | c :: rest =>
      if c.toNat < 0x20 then none
      else (parseStringRest rest).map fun p => (c :: p.1, p.2)

mutual

/-- Parse one JSON value. -/
def parseValue : Nat → List Char → Option (Json × List Char)
  | 0, _ => none
  | fuel + 1, cs =>
      match skipWs cs with
      | '{' :: rest => parseObjBody fuel rest
      | '[' :: rest => parseArrBody fuel rest
      | '"' :: rest => (parseStringRest rest).map fun p => (.str ⟨p.1⟩, p.2)
      | 't' :: 'r' :: 'u' :: 'e' :: rest => some (.bool true, rest)
      | 'f' :: 'a' :: 'l' :: 's' :: 'e' :: rest => some (.bool false, rest)
      | 'n' :: 'u' :: 'l' :: 'l' :: rest => some (.null, rest)
      | other => (parseNumber other).map fun p => (.num p.1, p.2)

/-- Parse an array body after `[`: empty array or first element. -/
def parseArrBody : Nat → List Char → Option (Json × List Char)
  | 0, _ => none
  | fuel + 1, cs =>
      match skipWs cs with
      | ']' :: rest => some (.arr [], rest)
      | other =>
          match parseValue fuel other with
          | some (v, rest) => parseArrTail fuel rest [v]
          | none => none

/-- Parse an array continuation: `,` then a value, or `]`. -/
def parseArrTail (fuel : Nat) (cs : List Char) (acc : List Json) :
    Option (Json × List Char) :=
  match fuel with
  | 0 => none
  | fuel + 1 =>
      match skipWs cs with
      | ']' :: rest => some (.arr acc, rest)
      | ',' :: rest =>
          match parseValue fuel rest with
          | some (v, rest1) => parseArrTail fuel rest1 (acc ++ [v])
          | none => none
      | _ => none

/-- Parse an object body after `{`: empty object or first member. -/
def parseObjBody : Nat → List Char → Option (Json × List Char)
  | 0, _ => none
  | fuel + 1, cs =>
      match skipWs cs with
      | '}' :: rest => some (.obj [], rest)
      | other => parseMember fuel other []

/-- Parse one `"key" : value` member and assign it into the record. -/
def parseMember (fuel : Nat) (cs : List Char) (acc : List (String × Json)) :
    Option (Json × List Char) :=
  match fuel with
  | 0 => none
  | fuel + 1 =>
      match skipWs cs with
      | '"' :: rest =>
          match parseStringRest rest with
          | some (key, rest1) =>
              match skipWs rest1 with
              | ':' :: rest2 =>
                  match parseValue fuel rest2 with
                  | some (v, rest3) => parseObjTail fuel rest3 (recInsert acc ⟨key⟩ v)
                  | none => none
              | _ => none
          | none => none
      | _ => none

/-- Parse an object continuation: `,` then a member, or `}`. -/
def parseObjTail (fuel : Nat) (cs : List Char) (acc : List (String × Json)) :
    Option (Json × List Char) :=
  match fuel with
  | 0 => none
  | fuel + 1 =>
      match skipWs cs with
      | '}' :: rest => some (.obj acc, rest)
      | ',' :: rest => parseMember fuel rest acc
      | _ => none

end

/-- `JSON.parse(s)`: parse one value, allow trailing whitespace, reject
trailing garbage; `none` models a thrown `SyntaxError`. -/
def jsonParse (s : String) : Option Json :=
  match parseValue (4 * s.length + 16) s.data with
  | some (j, rest) => if skipWs rest = [] then some j else none
  | none => none

/-- `filterLines` from `filterUtils.ts`: trim each line, drop it when
empty or unparsable, keep the trimmed text when it parses and matches
all filters; the result preserves the original relative order. -/
def filterLines (lines : List String) (filters : List Filter) : List String :=
  match lines with
  | [] => []
  | line :: rest =>
      let trimmed := jsTrim line
      if trimmed = "" then filterLines rest filters
      else
        match jsonParse trimmed with
        | none => filterLines rest filters
        | some json =>
            if matchesAllFilters json filters then trimmed :: filterLines rest filters
            else filterLines rest filters

/-- The embedded-JSON sniff of `decodeUriStrings`: after trimming
leading whitespace, the string is non-empty and starts with `{` or
`[`. -/
def looksLikeJson (s : String) : Bool :=
  let t := jsTrimStart s
  0 < t.length && (t.front = '{' || t.front = '[')

mutual

/-- One budget level of `decodeUriStrings`: the traversal of the value
at a fixed remaining budget. `null` (and non-string primitives) pass
through; a string is percent-decoded (falling back to the original on
`URIError`) and, when the result looks like and parses as JSON,
replaced by `unwrapk parsed`, where `unwrapk` is the decoder at the
decremented budget; arrays and objects are rebuilt value-wise at the
same budget (the source re-enters `decodeUriStrings` with an unchanged
`maxDepth`, whose `maxDepth <= 0` check then fails exactly as it did at
entry). -/
def decodeStep (unwrapk : Json → Json) : Json → Json
  | .null => .null
  | .str s =>
      let decoded := tryDecodeURIComponent s
      if looksLikeJson decoded then
        match jsonParse decoded with
        | some parsed => unwrapk parsed
        | none => .str decoded
      else .str decoded
  | .arr xs => .arr (decodeStepElems unwrapk xs)
  | .obj fs => .obj (decodeStepFields unwrapk fs)
  | other => other

/-- The `obj.map(item => decodeUriStrings(item, maxDepth))` traversal. -/
def decodeStepElems (unwrapk : Json → Json) : List Json → List Json
  | [] => []
  | x :: xs => decodeStep unwrapk x :: decodeStepElems unwrapk xs

/-- The key loop of `decodeUriStrings` on an object: every value is
decoded at the same budget, keys and key order unchanged. -/
def decodeStepFields (unwrapk : Json → Json) :
    List (String × Json) → List (String × Json)
  | [] => []
  | (k, v) :: fs => (k, decodeStep unwrapk v) :: decodeStepFields unwrapk fs

end

/-- The decoder at a non-negative remaining budget: zero budget returns
the value unchanged (`maxDepth <= 0`), a positive budget runs one level
whose successful embedded-JSON unwraps continue with one unit less. -/
def decodeAux : Nat → Json → Json
  | 0, obj => obj
  | n + 1, obj => decodeStep (fun parsed => decodeAux n parsed) obj

/-- `decodeUriStrings` from `jsonUtils.ts`. The source carries the
budget as a number checked by `maxDepth <= 0` at each entry and
decremented by each successful embedded-JSON unwrap; `Int.toNat` maps
that budget onto the natural-number recursion of `decodeAux`
(`(d - 1).toNat = d.toNat - 1` for positive `d`, and every
non-positive budget behaves as zero). -/
def decodeUriStrings (obj : Json) (maxDepth : Int) : Json :=
  decodeAux maxDepth.toNat obj

mutual

/-- Ghost instrumentation of one budget level of `decodeUriStrings`:
the greatest number of nested successful embedded-JSON unwraps along
any path, `count` giving the count of the continuation at the
decremented budget. -/
def unwrapStep (count : Json → Nat) : Json → Nat
  | .str s =>
      let decoded := tryDecodeURIComponent s
      if looksLikeJson decoded then
        match jsonParse decoded with
        | some parsed => 1 + count parsed
        | none => 0
      else 0
  | .arr xs => unwrapStepElems count xs
  | .obj fs => unwrapStepFields count fs
  | _ => 0

/-- Greatest unwrap count over the elements of an array. -/
def unwrapStepElems (count : Json → Nat) : List Json → Nat
  | [] => 0
  | x :: xs => max (unwrapStep count x) (unwrapStepElems count xs)

/-- Greatest unwrap count over the values of an object. -/
def unwrapStepFields (count : Json → Nat) : List (String × Json) → Nat
  | [] => 0
  | (_, v) :: fs => max (unwrapStep count v) (unwrapStepFields count fs)

end

/-- Unwrap count of the decoder at a non-negative remaining budget:
zero budget performs no unwraps. -/
def unwrapsAux : Nat → Json → Nat
  | 0, _ => 0
  | n + 1, obj => unwrapStep (fun parsed => unwrapsAux n parsed) obj

/-- Ghost instrumentation of `decodeUriStrings`: the greatest number of
nested successful embedded-JSON unwraps performed along any recursion
path, mirroring the recursion of the decoder itself. -/
def decodeUnwraps (obj : Json) (maxDepth : Int) : Nat :=
  unwrapsAux maxDepth.toNat obj

/-- The per-line transformation pipeline of `PreviewPanel.update`
(`previewPanel.ts`): a non-empty custom order is applied (and the
automatic reorder is not), otherwise the automatic reorder runs when
enabled; afterwards, when URI decoding is enabled, `decodeUriStrings`
(default depth 10) runs on the already-reordered value. -/
def previewTransform (json : Json) (customOrder : List String)
    (reorderKeys uriDecode : Bool) : Json :=
  let json1 :=
    if 0 < customOrder.length then applyCustomOrder json customOrder
    else if reorderKeys then reorderJsonKeys json
    else json
  if uriDecode then decodeUriStrings json1 10 else json1

/-- The fields of an object value (and `[]` on every other value):
lets theorems speak about the record an engine built. -/
def objFields : Json → List (String × Json)
  | .obj fs => fs
  | _ => []

/-- The key list of an object value, in declared order. -/
def objKeys (j : Json) : List String := (objFields j).map Prod.fst

/-- Whether a value is a (non-array, non-null) object. -/
def isObj : Json → Bool
  | .obj _ => true
  | _ => false

mutual

/-- Whether a value contains no string leaf anywhere. -/
def stringFree : Json → Bool
  | .str _ => false
  | .arr xs => stringFreeElems xs
  | .obj fs => stringFreeFields fs
  | _ => true

/-- `stringFree` over the elements of an array. -/
def stringFreeElems : List Json → Bool
  | [] => true
  | x :: xs => stringFree x && stringFreeElems xs

/-- `stringFree` over the values of an object. -/
def stringFreeFields : List (String × Json) → Bool
  | [] => true
  | (_, v) :: fs => stringFree v && stringFreeFields fs

end

/-! ### Record and traversal lemmas -/

/-- Induction over `Json` through the nested lists: to prove `P` of
every value it is enough to prove it for the leaves and, for arrays and
objects, from `P` of every element/field value. -/
theorem json_induction {P : Json → Prop} (hnull : P Json.null)
    (hbool : ∀ b, P (Json.bool b)) (hnum : ∀ n, P (Json.num n))
    (hstr : ∀ s, P (Json.str s))
    (harr : ∀ xs, (∀ x ∈ xs, P x) → P (Json.arr xs))
    (hobj : ∀ fs, (∀ kv ∈ fs, P kv.2) → P (Json.obj fs)) :
    ∀ j, P j
  | .null => hnull
  | .bool b => hbool b
  | .num n => hnum n
  | .str s => hstr s
  | .arr xs => harr xs fun x hx =>
      json_induction hnull hbool hnum hstr harr hobj x
  | .obj fs => hobj fs fun kv hkv =>
      json_induction hnull hbool hnum hstr harr hobj kv.2
termination_by j => sizeOf j
decreasing_by
  · have := List.sizeOf_lt_of_mem hx
    simp only [Json.arr.sizeOf_spec]
    omega
  · have h1 := List.sizeOf_lt_of_mem hkv
    obtain ⟨k, v⟩ := kv
    simp only [Json.obj.sizeOf_spec]
    simp only [Prod.mk.sizeOf_spec] at h1
    omega

theorem findField_eq_none (fs : List (String × Json)) (k : String) :
    findField fs k = none ↔ k ∉ fs.map Prod.fst := by
  induction fs with
  | nil => simp [findField]
  | cons kv rest ih =>
      obtain ⟨k', v⟩ := kv
      by_cases h : k' = k
      · subst h; simp [findField]
      · simp [findField, h, ih, Ne.symm h]

theorem findField_mem {fs : List (String × Json)} {k : String} {v : Json}
    (h : findField fs k = some v) : (k, v) ∈ fs := by
  induction fs with
  | nil => simp [findField] at h
  | cons kv rest ih =>
      obtain ⟨k', w⟩ := kv
      simp only [findField] at h
      split at h
      · obtain ⟨rfl, rfl⟩ : k' = k ∧ w = v := by
          constructor <;> simp_all
        exact List.mem_cons_self _ _
      · exact List.mem_cons_of_mem _ (ih h)

theorem nodup_keys_val_eq {fs : List (String × Json)} {k : String} {v w : Json}
    (h : (fs.map Prod.fst).Nodup) (hv : (k, v) ∈ fs) (hw : (k, w) ∈ fs) : v = w := by
  induction fs with
  | nil => simp at hv
  | cons kv rest ih =>
      obtain ⟨k', u⟩ := kv
      simp only [List.map_cons, List.nodup_cons] at h
      rcases List.mem_cons.1 hv with hv1 | hv1 <;>
        rcases List.mem_cons.1 hw with hw1 | hw1
      · injection hv1 with h1 h2
        injection hw1 with h3 h4
        rw [h2, h4]
      · injection hv1 with h1 h2
        subst h1
        exact absurd (List.mem_map_of_mem Prod.fst hw1) h.1
      · injection hw1 with h1 h2
        subst h1
        exact absurd (List.mem_map_of_mem Prod.fst hv1) h.1
      · exact ih h.2 hv1 hw1

theorem findField_of_mem {fs : List (String × Json)} {k : String} {v : Json}
    (h : (fs.map Prod.fst).Nodup) (hm : (k, v) ∈ fs) : findField fs k = some v := by
  induction fs with
  | nil => simp at hm
  | cons kv rest ih =>
      obtain ⟨k', w⟩ := kv
      simp only [List.map_cons, List.nodup_cons] at h
      rcases List.mem_cons.1 hm with h1 | h1
      · injection h1 with h2 h3
        subst h2
        subst h3
        simp [findField]
      · have hne : k' ≠ k := by
          rintro rfl
          exact h.1 (List.mem_map_of_mem Prod.fst h1)
        simp [findField, hne, ih h.2 h1]

theorem findField_append_left {a : List (String × Json)} (b : List (String × Json))
    {k : String} {v : Json} (h : findField a k = some v) :
    findField (a ++ b) k = some v := by
  induction a with
  | nil => simp [findField] at h
  | cons kv rest ih =>
      obtain ⟨k', w⟩ := kv
      by_cases hk : k' = k <;> simp_all [findField]

theorem findField_append_right {a : List (String × Json)} (b : List (String × Json))
    {k : String} (h : findField a k = none) :
    findField (a ++ b) k = findField b k := by
  induction a with
  | nil => simp
  | cons kv rest ih =>
      obtain ⟨k', w⟩ := kv
      by_cases hk : k' = k <;> simp_all [findField]

theorem contains_eq_mem (l : List String) (k : String) :
    l.contains k = true ↔ k ∈ l := List.elem_iff

theorem reorderElems_eq (xs : List Json) :
    reorderElems xs = xs.map reorderJsonKeys := by
  induction xs with
  | nil => rfl
  | cons x xs ih => simp [reorderElems, ih]

theorem reorderConts_eq (fs : List (String × Json)) :
    reorderConts fs =
      (fs.filter fun kv => kv.2.isContainer).map
        fun kv => (kv.1, reorderJsonKeys kv.2) := by
  induction fs with
  | nil => rfl
  | cons kv rest ih =>
      obtain ⟨k, v⟩ := kv
      by_cases h : v.isContainer <;> simp [reorderConts, List.filter_cons, h, ih]

theorem reorderJsonKeys_of_not_container {v : Json}
    (h : v.isContainer = false) : reorderJsonKeys v = v := by
  cases v <;> simp_all [Json.isContainer, reorderJsonKeys]

theorem isContainer_reorderJsonKeys (v : Json) :
    (reorderJsonKeys v).isContainer = v.isContainer := by
  cases v <;> simp [reorderJsonKeys, Json.isContainer]

theorem applyCustomOrder_of_not_container {v : Json} (order : List String)
    (h : v.isContainer = false) : applyCustomOrder v order = v := by
  cases v <;> simp_all [Json.isContainer, applyCustomOrder]

theorem isContainer_applyCustomOrder (v : Json) (order : List String) :
    (applyCustomOrder v order).isContainer = v.isContainer := by
  cases v <;> simp [applyCustomOrder, Json.isContainer]

theorem acoElems_eq (xs : List Json) (order : List String) :
    acoElems xs order = xs.map (applyCustomOrder · order) := by
  induction xs with
  | nil => rfl
  | cons x xs ih => simp [acoElems, ih]

theorem acoFields_eq (fs : List (String × Json)) (order : List String) :
    acoFields fs order = fs.map fun kv => (kv.1, applyCustomOrder kv.2 order) := by
  induction fs with
  | nil => rfl
  | cons kv rest ih =>
      obtain ⟨k, v⟩ := kv
      by_cases h : v.isContainer
      · simp [acoFields, h, ih]
      · simp only [Bool.not_eq_true] at h
        simp [acoFields, h, ih, applyCustomOrder_of_not_container order h]

theorem findField_isSome (rfs : List (String × Json)) (k : String) :
    (findField rfs k).isSome ↔ k ∈ rfs.map Prod.fst := by
  cases hf : findField rfs k with
  | none =>
      simpa using (findField_eq_none _ _).1 hf
  | some v =>
      simp only [Option.isSome_some, true_iff]
      exact List.mem_map_of_mem Prod.fst (findField_mem hf)

theorem recInsert_of_mem {acc : List (String × Json)} {key : String} {v : Json}
    (hmem : key ∈ acc.map Prod.fst)
    (hval : ∀ kv ∈ acc, kv.1 = key → kv.2 = v) :
    recInsert acc key v = acc := by
  unfold recInsert
  rw [if_pos ((contains_eq_mem _ _).2 hmem)]
  conv_rhs => rw [← List.map_id acc]
  refine List.map_congr_left ?_
  intro kv hkv
  by_cases hk : kv.1 = key
  · have := hval kv hkv hk
    obtain ⟨k', v'⟩ := kv
    simp_all
  · simp [hk]

theorem recInsert_of_not_mem {acc : List (String × Json)} {key : String}
    {v : Json} (h : key ∉ acc.map Prod.fst) :
    recInsert acc key v = acc ++ [(key, v)] := by
  unfold recInsert
  rw [if_neg fun hc => h ((contains_eq_mem _ _).1 hc)]

/-- Explicit form of `acoOrderedSel`'s accumulation: the keys of `order`
that are present in the record, each at its first occurrence not already
seen, paired with the record's value. -/
def orderedSelSpec (rfs : List (String × Json)) :
    List String → List String → List (String × Json)
  | [], _ => []
  | key :: rest, seen =>
      match findField rfs key with
      | some v =>
          if key ∈ seen then orderedSelSpec rfs rest seen
          else (key, v) :: orderedSelSpec rfs rest (key :: seen)
      | none => orderedSelSpec rfs rest seen

theorem orderedSelSpec_congr (rfs : List (String × Json)) {ks s1 s2 : List String}
    (h : ∀ x, x ∈ s1 ↔ x ∈ s2) :
    orderedSelSpec rfs ks s1 = orderedSelSpec rfs ks s2 := by
  induction ks generalizing s1 s2 with
  | nil => rfl
  | cons key rest ih =>
      cases hf : findField rfs key with
      | none => simp only [orderedSelSpec, hf]; exact ih h
      | some v =>
          simp only [orderedSelSpec, hf]
          by_cases hk : key ∈ s1
          · rw [if_pos hk, if_pos ((h key).1 hk), ih h]
          · have hcons : ∀ x, x ∈ key :: s1 ↔ x ∈ key :: s2 := fun x => by
              simp only [List.mem_cons]
              exact or_congr Iff.rfl (h x)
            rw [if_neg hk, if_neg fun hk2 => hk ((h key).2 hk2), ih hcons]

theorem acoOrderedSel_eq_spec (rfs : List (String × Json)) :
    ∀ (ks : List String) (acc : List (String × Json)),
      (∀ kv ∈ acc, findField rfs kv.1 = some kv.2) →
      acoOrderedSel rfs ks acc = acc ++ orderedSelSpec rfs ks (acc.map Prod.fst) := by
  intro ks
  induction ks with
  | nil =>
      intro acc _
      simp [acoOrderedSel, orderedSelSpec]
  | cons key rest ih =>
      intro acc hinv
      cases hf : findField rfs key with
      | none => simp only [acoOrderedSel, orderedSelSpec, hf]; exact ih acc hinv
      | some v =>
          simp only [acoOrderedSel, orderedSelSpec, hf]
          by_cases hk : key ∈ acc.map Prod.fst
          · rw [if_pos hk]
            have hins : recInsert acc key v = acc :=
              recInsert_of_mem hk fun kv hkv h1 => by
                have := hinv kv hkv
                rw [h1, hf] at this
                exact (Option.some.injEq _ _ ▸ this.symm :)
            rw [hins, ih acc hinv]
          · rw [if_neg hk]
            rw [recInsert_of_not_mem hk]
            have hinv2 : ∀ kv ∈ acc ++ [(key, v)], findField rfs kv.1 = some kv.2 := by
              intro kv hkv
              rcases List.mem_append.1 hkv with h1 | h1
              · exact hinv kv h1
              · simp only [List.mem_singleton] at h1
                rw [h1, hf]
            rw [ih _ hinv2]
            have hseen : orderedSelSpec rfs rest (acc.map Prod.fst ++ [key]) =
                orderedSelSpec rfs rest (key :: acc.map Prod.fst) :=
              orderedSelSpec_congr rfs fun x => by
                simp [List.mem_append, List.mem_cons, or_comm]
            simp only [List.map_append, List.map_cons, List.map_nil]
            rw [hseen]
            simp

theorem orderedSelSpec_mem (rfs : List (String × Json)) :
    ∀ (ks seen : List String) (kv : String × Json),
      kv ∈ orderedSelSpec rfs ks seen →
      findField rfs kv.1 = some kv.2 ∧ kv.1 ∈ ks ∧ kv.1 ∉ seen := by
  intro ks
  induction ks with
  | nil => intro seen kv h; simp [orderedSelSpec] at h
  | cons key rest ih =>
      intro seen kv h
      cases hf : findField rfs key with
      | none =>
          simp only [orderedSelSpec, hf] at h
          obtain ⟨h1, h2, h3⟩ := ih seen kv h
          exact ⟨h1, List.mem_cons_of_mem _ h2, h3⟩
      | some v =>
          simp only [orderedSelSpec, hf] at h
          by_cases hk : key ∈ seen
          · rw [if_pos hk] at h
            obtain ⟨h1, h2, h3⟩ := ih seen kv h
            exact ⟨h1, List.mem_cons_of_mem _ h2, h3⟩
          · rw [if_neg hk] at h
            rcases List.mem_cons.1 h with h1 | h1
            · subst h1
              exact ⟨hf, List.mem_cons_self _ _, hk⟩
            · obtain ⟨h1, h2, h3⟩ := ih _ kv h1
              refine ⟨h1, List.mem_cons_of_mem _ h2, fun hs => h3 ?_⟩
              exact List.mem_cons_of_mem _ hs

theorem orderedSelSpec_nodup (rfs : List (String × Json)) :
    ∀ (ks seen : List String),
      ((orderedSelSpec rfs ks seen).map Prod.fst).Nodup ∧
      ∀ k ∈ (orderedSelSpec rfs ks seen).map Prod.fst, k ∉ seen := by
  intro ks
  induction ks with
  | nil => intro seen; simp [orderedSelSpec]
  | cons key rest ih =>
      intro seen
      cases hf : findField rfs key with
      | none => simp only [orderedSelSpec, hf]; exact ih seen
      | some v =>
          simp only [orderedSelSpec, hf]
          by_cases hk : key ∈ seen
          · rw [if_pos hk]
            exact ih seen
          · rw [if_neg hk]
            obtain ⟨hnd, hdis⟩ := ih (key :: seen)
            refine ⟨?_, ?_⟩
            · simp only [List.map_cons, List.nodup_cons]
              exact ⟨fun hmem => (hdis key hmem) (List.mem_cons_self _ _), hnd⟩
            · intro k hkmem
              simp only [List.map_cons, List.mem_cons] at hkmem
              rcases hkmem with h1 | h1
              · exact h1 ▸ hk
              · exact fun hs => hdis k h1 (List.mem_cons_of_mem _ hs)

theorem orderedSelSpec_key_mem (rfs : List (String × Json)) :
    ∀ (ks seen : List String) (k : String),
      k ∈ (orderedSelSpec rfs ks seen).map Prod.fst ↔
        k ∈ ks ∧ k ∈ rfs.map Prod.fst ∧ k ∉ seen := by
  intro ks
  induction ks with
  | nil => intro seen k; simp [orderedSelSpec]
  | cons key rest ih =>
      intro seen k
      cases hf : findField rfs key with
      | none =>
          simp only [orderedSelSpec, hf]
          rw [ih seen k]
          constructor
          · rintro ⟨h1, h2, h3⟩
            exact ⟨List.mem_cons_of_mem _ h1, h2, h3⟩
          · rintro ⟨h1, h2, h3⟩
            rcases List.mem_cons.1 h1 with rfl | h1
            · rw [← findField_isSome] at h2
              rw [hf] at h2
              simp at h2
            · exact ⟨h1, h2, h3⟩
      | some v =>
          simp only [orderedSelSpec, hf]
          by_cases hk : key ∈ seen
          · rw [if_pos hk, ih seen k]
            constructor
            · rintro ⟨h1, h2, h3⟩
              exact ⟨List.mem_cons_of_mem _ h1, h2, h3⟩
            · rintro ⟨h1, h2, h3⟩
              rcases List.mem_cons.1 h1 with rfl | h1
              · exact absurd hk h3
              · exact ⟨h1, h2, h3⟩
          · rw [if_neg hk]
            simp only [List.map_cons, List.mem_cons]
            rw [ih _ k]
            constructor
            · rintro (rfl | ⟨h1, h2, h3⟩)
              · refine ⟨Or.inl rfl, ?_, hk⟩
                have : (findField rfs k).isSome := by rw [hf]; rfl
                exact (findField_isSome _ _).1 this
              · refine ⟨Or.inr h1, h2, fun hs => h3 ?_⟩
                exact List.mem_cons_of_mem _ hs
            · rintro ⟨h1, h2, h3⟩
              rcases h1 with rfl | h1
              · exact Or.inl rfl
              · by_cases hkk : k = key
                · exact Or.inl hkk
                · exact Or.inr ⟨h1, h2, by simp [List.mem_cons, hkk, h3]⟩

theorem orderedSelSpec_pairwise (rfs : List (String × Json)) :
    ∀ (ks seen : List String),
      ((orderedSelSpec rfs ks seen).map Prod.fst).Pairwise
        (fun a b => ks.indexOf a < ks.indexOf b) := by
  intro ks
  induction ks with
  | nil => intro seen; simp [orderedSelSpec]
  | cons key rest ih =>
      intro seen
      have transfer :
          ∀ (s2 : List String),
            (∀ k ∈ (orderedSelSpec rfs rest s2).map Prod.fst, k ≠ key) →
            ((orderedSelSpec rfs rest s2).map Prod.fst).Pairwise
              (fun a b => (key :: rest).indexOf a < (key :: rest).indexOf b) := by
        intro s2 hne
        refine (ih s2).imp_of_mem ?_
        intro a b ha hb hlt
        rw [List.indexOf_cons_ne _ (Ne.symm (hne a ha)),
          List.indexOf_cons_ne _ (Ne.symm (hne b hb))]
        exact Nat.succ_lt_succ hlt
      cases hf : findField rfs key with
      | none =>
          simp only [orderedSelSpec, hf]
          refine transfer seen fun k hk => ?_
          rintro rfl
          have h2 := ((orderedSelSpec_key_mem rfs rest seen k).1 hk).2.1
          rw [← findField_isSome, hf] at h2
          simp at h2
      | some v =>
          simp only [orderedSelSpec, hf]
          by_cases hk : key ∈ seen
          · rw [if_pos hk]
            refine transfer seen fun k hkm => ?_
            rintro rfl
            exact ((orderedSelSpec_nodup rfs rest seen).2 k hkm) hk
          · rw [if_neg hk]
            simp only [List.map_cons]
            refine List.Pairwise.cons ?_ ?_
            · intro b hb
              have hbne : b ≠ key := by
                intro hbk
                rw [hbk] at hb
                exact ((orderedSelSpec_nodup rfs rest (key :: seen)).2 key hb)
                  (List.mem_cons_self _ _)
              rw [List.indexOf_cons_self, List.indexOf_cons_ne _ (Ne.symm hbne)]
              exact Nat.succ_pos _
            · refine transfer (key :: seen) fun k hkm hkey => ?_
              rw [hkey] at hkm
              exact ((orderedSelSpec_nodup rfs rest (key :: seen)).2 key hkm)
                (List.mem_cons_self _ _)

theorem indexOf_append_of_not_mem {l1 l2 : List String} {a : String}
    (h : a ∉ l1) : (l1 ++ l2).indexOf a = l1.length + l2.indexOf a := by
  induction l1 with
  | nil => simp
  | cons b l1 ih =>
      have hne : a ≠ b := fun hab => h (hab ▸ List.mem_cons_self _ _)
      rw [List.cons_append, List.indexOf_cons_ne _ (Ne.symm hne),
        ih fun hm => h (List.mem_cons_of_mem _ hm)]
      simp [Nat.succ_add]

theorem indexOf_lt_of_pairwise {l : List String} {R : String → String → Prop}
    (hp : l.Pairwise R) {a b : String} (ha : a ∈ l) (hb : b ∈ l)
    (hab : a ≠ b) (hnr : ¬ R b a) : l.indexOf a < l.indexOf b := by
  have hia := List.indexOf_lt_length.2 ha
  have hib := List.indexOf_lt_length.2 hb
  rcases Nat.lt_trichotomy (l.indexOf a) (l.indexOf b) with h | h | h
  · exact h
  · exfalso
    apply hab
    have h1 := List.indexOf_get hia
    have h2 := List.indexOf_get hib
    rw [← h1, ← h2]
    congr 1
    exact Fin.ext h
  · exfalso
    apply hnr
    have := List.pairwise_iff_get.1 hp ⟨l.indexOf b, hib⟩ ⟨l.indexOf a, hia⟩ h
    rwa [List.indexOf_get hia, List.indexOf_get hib] at this

theorem map_fst_filter_key (l : List (String × Json)) (p : String → Bool) :
    (l.filter fun kv => p kv.1).map Prod.fst = (l.map Prod.fst).filter p := by
  induction l with
  | nil => rfl
  | cons kv rest ih =>
      obtain ⟨k, v⟩ := kv
      by_cases h : p k <;> simp [List.filter_cons, h, ih]

theorem acoFields_keys (fs : List (String × Json)) (order : List String) :
    (acoFields fs order).map Prod.fst = fs.map Prod.fst := by
  rw [acoFields_eq, List.map_map]
  rfl

/-! ### The two parts of a custom-ordered object -/

theorem aco_obj_decomp (fs : List (String × Json)) (order : List String) :
    objFields (applyCustomOrder (.obj fs) order) =
      orderedSelSpec (acoFields fs order) order [] ++
        (acoFields fs order).filter fun kv => !order.contains kv.1 := by
  simp only [applyCustomOrder, objFields]
  rw [acoOrderedSel_eq_spec _ _ [] (by simp)]
  simp

theorem og_key_mem (fs : List (String × Json)) (order : List String) (k : String) :
    k ∈ (orderedSelSpec (acoFields fs order) order []).map Prod.fst ↔
      k ∈ order ∧ k ∈ fs.map Prod.fst := by
  rw [orderedSelSpec_key_mem, acoFields_keys]
  simp

theorem og_lookup {fs : List (String × Json)} {order : List String}
    {k : String} {v : Json} (h : (fs.map Prod.fst).Nodup) (hm : (k, v) ∈ fs)
    (ho : k ∈ order) :
    findField (orderedSelSpec (acoFields fs order) order []) k =
      some (applyCustomOrder v order) := by
  have hrfs : (k, applyCustomOrder v order) ∈ acoFields fs order := by
    rw [acoFields_eq]
    exact List.mem_map_of_mem _ hm
  have hrnd : ((acoFields fs order).map Prod.fst).Nodup := by
    rw [acoFields_keys]; exact h
  have hff : findField (acoFields fs order) k = some (applyCustomOrder v order) :=
    findField_of_mem hrnd hrfs
  have hkm : k ∈ (orderedSelSpec (acoFields fs order) order []).map Prod.fst :=
    (og_key_mem fs order k).2 ⟨ho, List.mem_map_of_mem Prod.fst hm⟩
  obtain ⟨kv, hkv, hfst⟩ := List.mem_map.1 hkm
  obtain ⟨k', w⟩ := kv
  simp only at hfst
  subst hfst
  have hspec := (orderedSelSpec_mem _ _ _ _ hkv).1
  rw [hff] at hspec
  have hw : w = applyCustomOrder v order := by
    injection hspec.symm
  subst hw
  exact findField_of_mem (orderedSelSpec_nodup _ _ _).1 hkv

theorem rem_keys (fs : List (String × Json)) (order : List String) :
    ((acoFields fs order).filter fun kv => !order.contains kv.1).map Prod.fst =
      (fs.map Prod.fst).filter fun k => !order.contains k := by
  have h1 := map_fst_filter_key (acoFields fs order) fun k => !order.contains k
  rw [acoFields_keys] at h1
  exact h1

theorem rem_lookup {fs : List (String × Json)} {order : List String}
    {k : String} {v : Json} (h : (fs.map Prod.fst).Nodup) (hm : (k, v) ∈ fs)
    (ho : k ∉ order) :
    findField ((acoFields fs order).filter fun kv => !order.contains kv.1) k =
      some (applyCustomOrder v order) := by
  have hrfs : (k, applyCustomOrder v order) ∈ acoFields fs order := by
    rw [acoFields_eq]
    exact List.mem_map_of_mem _ hm
  have hcf : order.contains k = false := by
    by_contra hc
    simp only [Bool.not_eq_false] at hc
    exact ho ((contains_eq_mem _ _).1 hc)
  have hmem : (k, applyCustomOrder v order) ∈
      (acoFields fs order).filter fun kv => !order.contains kv.1 := by
    rw [List.mem_filter]
    exact ⟨hrfs, by simpa using ho⟩
  refine findField_of_mem ?_ hmem
  have hsub : (((acoFields fs order).filter fun kv =>
      !order.contains kv.1).map Prod.fst).Sublist
        ((acoFields fs order).map Prod.fst) :=
    List.Sublist.map _ (List.filter_sublist _)
  exact List.Nodup.sublist hsub (by rw [acoFields_keys]; exact h)

theorem og_lookup_none {fs : List (String × Json)} {order : List String}
    {k : String} (ho : k ∉ order) :
    findField (orderedSelSpec (acoFields fs order) order []) k = none := by
  rw [findField_eq_none]
  intro hk
  exact ho ((og_key_mem fs order k).1 hk).1

/-! ### The two parts of an automatically reordered object -/

theorem reorder_obj_decomp (fs : List (String × Json)) :
    objFields (reorderJsonKeys (.obj fs)) =
      (fs.filter fun kv => !kv.2.isContainer) ++
        (fs.filter fun kv => kv.2.isContainer).map
          fun kv => (kv.1, reorderJsonKeys kv.2) := by
  simp [reorderJsonKeys, objFields, reorderConts_eq]

theorem reorder_keys_perm (fs : List (String × Json)) :
    (objKeys (reorderJsonKeys (.obj fs))).Perm (fs.map Prod.fst) := by
  rw [objKeys, reorder_obj_decomp, List.map_append, List.map_map]
  have hmap : (fs.filter fun kv => kv.2.isContainer).map
      (Prod.fst ∘ fun kv => (kv.1, reorderJsonKeys kv.2)) =
      (fs.filter fun kv => kv.2.isContainer).map Prod.fst :=
    List.map_congr_left fun kv _ => rfl
  rw [hmap, ← List.map_append]
  refine List.Perm.map Prod.fst ?_
  have h2 : (fs.filter fun kv => !!kv.2.isContainer) =
      fs.filter fun kv => kv.2.isContainer :=
    List.filter_congr fun kv _ => by simp
  have hperm := List.filter_append_perm (fun kv => !kv.2.isContainer) fs
  rwa [h2] at hperm

theorem reorder_prim_bucket_keys (fs : List (String × Json)) :
    ((objFields (reorderJsonKeys (.obj fs))).filter
        fun kv => !kv.2.isContainer).map Prod.fst =
      (fs.filter fun kv => !kv.2.isContainer).map Prod.fst := by
  rw [reorder_obj_decomp, List.filter_append]
  have h1 : ((fs.filter fun kv => !kv.2.isContainer).filter
      fun kv => !kv.2.isContainer) = fs.filter fun kv => !kv.2.isContainer := by
    rw [List.filter_eq_self]
    intro kv hkv
    exact (List.mem_filter.1 hkv).2
  have h2 : (((fs.filter fun kv => kv.2.isContainer).map
      fun kv => (kv.1, reorderJsonKeys kv.2)).filter
        fun kv => !kv.2.isContainer) = [] := by
    rw [List.filter_eq_nil_iff]
    intro kv hkv
    obtain ⟨kv', hkv', rfl⟩ := List.mem_map.1 hkv
    have hc := (List.mem_filter.1 hkv').2
    simp [isContainer_reorderJsonKeys, hc]
  rw [h1, h2, List.append_nil]

theorem reorder_cont_bucket_keys (fs : List (String × Json)) :
    ((objFields (reorderJsonKeys (.obj fs))).filter
        fun kv => kv.2.isContainer).map Prod.fst =
      (fs.filter fun kv => kv.2.isContainer).map Prod.fst := by
  rw [reorder_obj_decomp, List.filter_append]
  have h1 : ((fs.filter fun kv => !kv.2.isContainer).filter
      fun kv => kv.2.isContainer) = [] := by
    rw [List.filter_eq_nil_iff]
    intro kv hkv
    have hc := (List.mem_filter.1 hkv).2
    simp only [Bool.not_eq_true'] at hc
    simp [hc]
  have h2 : (((fs.filter fun kv => kv.2.isContainer).map
      fun kv => (kv.1, reorderJsonKeys kv.2)).filter
        fun kv => kv.2.isContainer) =
      (fs.filter fun kv => kv.2.isContainer).map
        fun kv => (kv.1, reorderJsonKeys kv.2) := by
    rw [List.filter_eq_self]
    intro kv hkv
    obtain ⟨kv', hkv', rfl⟩ := List.mem_map.1 hkv
    have hc := (List.mem_filter.1 hkv').2
    simpa [isContainer_reorderJsonKeys] using hc
  rw [h1, h2, List.nil_append, List.map_map]
  exact List.map_congr_left fun kv _ => rfl

theorem reorder_lookup {fs : List (String × Json)} {k : String} {v : Json}
    (h : (fs.map Prod.fst).Nodup) (hm : (k, v) ∈ fs) :
    findField (objFields (reorderJsonKeys (.obj fs))) k =
      some (reorderJsonKeys v) := by
  rw [reorder_obj_decomp]
  by_cases hc : v.isContainer
  · have hnone : findField (fs.filter fun kv => !kv.2.isContainer) k = none := by
      rw [findField_eq_none]
      intro hk
      obtain ⟨kv, hkv, hfst⟩ := List.mem_map.1 hk
      obtain ⟨k', w⟩ := kv
      simp only at hfst
      subst hfst
      obtain ⟨hmem, hp⟩ := List.mem_filter.1 hkv
      have hwv : w = v := nodup_keys_val_eq h hmem hm
      subst hwv
      rw [hc] at hp
      simp at hp
    rw [findField_append_right _ hnone]
    have hmem2 : (k, reorderJsonKeys v) ∈
        (fs.filter fun kv => kv.2.isContainer).map
          fun kv => (kv.1, reorderJsonKeys kv.2) :=
      List.mem_map_of_mem _ (List.mem_filter.2 ⟨hm, hc⟩)
    refine findField_of_mem ?_ hmem2
    have hkeys : ((fs.filter fun kv => kv.2.isContainer).map
        (fun kv => (kv.1, reorderJsonKeys kv.2))).map Prod.fst =
        ((fs.filter fun kv => kv.2.isContainer).map Prod.fst) := by
      rw [List.map_map]
      exact List.map_congr_left fun kv _ => rfl
    rw [hkeys]
    exact List.Nodup.sublist (List.Sublist.map _ (List.filter_sublist _)) h
  · have hprim : (k, v) ∈ fs.filter fun kv => !kv.2.isContainer :=
      List.mem_filter.2 ⟨hm, by simp [hc]⟩
    have hnd : ((fs.filter fun kv => !kv.2.isContainer).map Prod.fst).Nodup :=
      List.Nodup.sublist (List.Sublist.map _ (List.filter_sublist _)) h
    have hff := findField_of_mem hnd hprim
    rw [findField_append_left _ hff,
      reorderJsonKeys_of_not_container (Bool.not_eq_true _ ▸ hc)]

/-! ### The claims -/

/-- C1: both reordering operations preserve the key set of every object
at every nesting depth: on any object's field list `fs` (with the unique
keys a JavaScript object has), `reorderJsonKeys` and `applyCustomOrder`
return an object whose keys are a permutation of the input's keys, with
no key duplicated, dropped or invented, and each key maps to the
recursively reordered image of its original value. The statement is
universal in the field list, so it applies to every nested object
reached by the recursion. -/
theorem claim_C1 (fs : List (String × Json)) (order : List String)
    (h : (fs.map Prod.fst).Nodup) :
    (isObj (reorderJsonKeys (.obj fs)) = true
      ∧ (objKeys (reorderJsonKeys (.obj fs))).Perm (fs.map Prod.fst)
      ∧ (objKeys (reorderJsonKeys (.obj fs))).Nodup
      ∧ ∀ k v, (k, v) ∈ fs →
          findField (objFields (reorderJsonKeys (.obj fs))) k
            = some (reorderJsonKeys v))
    ∧ (isObj (applyCustomOrder (.obj fs) order) = true
      ∧ (objKeys (applyCustomOrder (.obj fs) order)).Perm (fs.map Prod.fst)
      ∧ (objKeys (applyCustomOrder (.obj fs) order)).Nodup
      ∧ ∀ k v, (k, v) ∈ fs →
          findField (objFields (applyCustomOrder (.obj fs) order)) k
            = some (applyCustomOrder v order)) := by
  constructor
  · refine ⟨by simp [reorderJsonKeys, isObj], reorder_keys_perm fs, ?_, ?_⟩
    · exact ((reorder_keys_perm fs).nodup_iff).2 h
    · intro k v hm
      exact reorder_lookup h hm
  · have hsplit := aco_obj_decomp fs order
    have hkeys : objKeys (applyCustomOrder (.obj fs) order) =
        (orderedSelSpec (acoFields fs order) order []).map Prod.fst ++
          ((acoFields fs order).filter fun kv => !order.contains kv.1).map Prod.fst := by
      rw [objKeys, hsplit, List.map_append]
    have hperm : (objKeys (applyCustomOrder (.obj fs) order)).Perm
        (fs.map Prod.fst) := by
      rw [hkeys, rem_keys]
      have hog : ((orderedSelSpec (acoFields fs order) order []).map Prod.fst).Perm
          ((fs.map Prod.fst).filter fun k => order.contains k) := by
        rw [List.perm_ext_iff_of_nodup (orderedSelSpec_nodup _ _ _).1
          (List.Nodup.filter _ h)]
        intro k
        rw [og_key_mem]
        simp only [List.mem_filter]
        constructor
        · rintro ⟨h1, h2⟩
          exact ⟨h2, (contains_eq_mem _ _).2 h1⟩
        · rintro ⟨h1, h2⟩
          exact ⟨(contains_eq_mem _ _).1 h2, h1⟩
      refine ((hog.append (List.Perm.refl _)).trans ?_)
      exact List.filter_append_perm _ _
    refine ⟨by simp [applyCustomOrder, isObj], hperm, (hperm.nodup_iff).2 h, ?_⟩
    intro k v hm
    rw [hsplit]
    by_cases ho : k ∈ order
    · exact findField_append_left _ (og_lookup h hm ho)
    · rw [findField_append_right _ (og_lookup_none ho)]
      exact rem_lookup h hm ho

/-- C1 witness: key-set invariance at the concrete object
`{b: {c: null}, a: 1}` with custom order `["a"]`. -/
theorem claim_C1_wit :
    (isObj (reorderJsonKeys (.obj [("b", .obj [("c", .null)]), ("a", .num 1)])) = true
      ∧ (objKeys (reorderJsonKeys
          (.obj [("b", .obj [("c", .null)]), ("a", .num 1)]))).Perm ["b", "a"]
      ∧ (objKeys (reorderJsonKeys
          (.obj [("b", .obj [("c", .null)]), ("a", .num 1)]))).Nodup
      ∧ ∀ k v, (k, v) ∈ [("b", Json.obj [("c", Json.null)]), ("a", Json.num 1)] →
          findField (objFields (reorderJsonKeys
            (.obj [("b", .obj [("c", .null)]), ("a", .num 1)]))) k
              = some (reorderJsonKeys v))
    ∧ (isObj (applyCustomOrder
          (.obj [("b", .obj [("c", .null)]), ("a", .num 1)]) ["a"]) = true
      ∧ (objKeys (applyCustomOrder
          (.obj [("b", .obj [("c", .null)]), ("a", .num 1)]) ["a"])).Perm ["b", "a"]
      ∧ (objKeys (applyCustomOrder
          (.obj [("b", .obj [("c", .null)]), ("a", .num 1)]) ["a"])).Nodup
      ∧ ∀ k v, (k, v) ∈ [("b", Json.obj [("c", Json.null)]), ("a", Json.num 1)] →
          findField (objFields (applyCustomOrder
            (.obj [("b", .obj [("c", .null)]), ("a", .num 1)]) ["a"])) k
              = some (applyCustomOrder v ["a"])) :=
  claim_C1 [("b", .obj [("c", .null)]), ("a", .num 1)] ["a"] (by decide)

theorem append_buckets_index {P C : List (String × Json)}
    (hP : ∀ kv ∈ P, kv.2.isContainer = false)
    (hC : ∀ kv ∈ C, kv.2.isContainer = true)
    {i j : Nat} (hi : i < (P ++ C).length) (hj : j < (P ++ C).length)
    (hpi : ¬((P ++ C).get ⟨i, hi⟩).2.isContainer = true)
    (hcj : ((P ++ C).get ⟨j, hj⟩).2.isContainer = true) : i < j := by
  have hiP : i < P.length := by
    by_contra hle
    push_neg at hle
    have hmem : (P ++ C).get ⟨i, hi⟩ ∈ C := by
      rw [List.get_eq_getElem, List.getElem_append_right hle]
      exact List.getElem_mem _
    exact hpi (hC _ hmem)
  have hjP : P.length ≤ j := by
    by_contra hlt
    push_neg at hlt
    have hmem : (P ++ C).get ⟨j, hj⟩ ∈ P := by
      rw [List.get_eq_getElem, List.getElem_append_left hlt]
      exact List.getElem_mem _
    rw [hP _ hmem] at hcj
    simp at hcj
  omega

/-- C2: in `reorderJsonKeys` of any object, every primitive-valued key
sits at a strictly smaller index than every container-valued key; the
two buckets keep their original relative key order; and arrays are
mapped element-wise, never reordered. Universal in the field list, so it
holds for every nested object the recursion reaches. -/
theorem claim_C2 (fs : List (String × Json)) (xs : List Json) :
    (∀ (i j : Nat) (hi : i < (objFields (reorderJsonKeys (.obj fs))).length)
        (hj : j < (objFields (reorderJsonKeys (.obj fs))).length),
        ¬((objFields (reorderJsonKeys (.obj fs))).get ⟨i, hi⟩).2.isContainer = true →
        ((objFields (reorderJsonKeys (.obj fs))).get ⟨j, hj⟩).2.isContainer = true →
        i < j)
    ∧ ((objFields (reorderJsonKeys (.obj fs))).filter
        fun kv => !kv.2.isContainer).map Prod.fst
        = (fs.filter fun kv => !kv.2.isContainer).map Prod.fst
    ∧ ((objFields (reorderJsonKeys (.obj fs))).filter
        fun kv => kv.2.isContainer).map Prod.fst
        = (fs.filter fun kv => kv.2.isContainer).map Prod.fst
    ∧ reorderJsonKeys (.arr xs) = .arr (xs.map reorderJsonKeys) := by
  refine ⟨?_, reorder_prim_bucket_keys fs, reorder_cont_bucket_keys fs, ?_⟩
  · have hP : ∀ kv ∈ fs.filter fun kv => !kv.2.isContainer,
        kv.2.isContainer = false := by
      intro kv hkv
      have := (List.mem_filter.1 hkv).2
      simpa using this
    have hC : ∀ kv ∈ reorderConts fs, kv.2.isContainer = true := by
      intro kv hkv
      rw [reorderConts_eq] at hkv
      obtain ⟨kv', hkv', rfl⟩ := List.mem_map.1 hkv
      have hc := (List.mem_filter.1 hkv').2
      simpa [isContainer_reorderJsonKeys] using hc
    intro i j hi hj hpi hcj
    exact append_buckets_index hP hC hi hj hpi hcj
  · simp [reorderJsonKeys, reorderElems_eq]

/-- C3: in `applyCustomOrder` of any object (unique keys), keys named
earlier in the order list precede keys named later when both are
present; keys absent from the order list come after all present
order-named keys and keep their original relative order among
themselves; order names absent from the object are skipped (every
output key is an input key); and every value is reordered with the same
order list, which by universality covers every nesting depth. Key
precedence in the order list is read at first occurrences
(`List.indexOf`), which is how the first-assignment-wins loop treats a
duplicated name. -/
theorem claim_C3 (fs : List (String × Json)) (order : List String)
    (h : (fs.map Prod.fst).Nodup) :
    (∀ k1 k2, k1 ∈ order → k2 ∈ order → order.indexOf k1 < order.indexOf k2 →
      k1 ∈ fs.map Prod.fst → k2 ∈ fs.map Prod.fst →
      (objKeys (applyCustomOrder (.obj fs) order)).indexOf k1 <
        (objKeys (applyCustomOrder (.obj fs) order)).indexOf k2)
    ∧ (∀ k1 k2, k1 ∈ order → k1 ∈ fs.map Prod.fst →
        k2 ∉ order → k2 ∈ fs.map Prod.fst →
        (objKeys (applyCustomOrder (.obj fs) order)).indexOf k1 <
          (objKeys (applyCustomOrder (.obj fs) order)).indexOf k2)
    ∧ ((objKeys (applyCustomOrder (.obj fs) order)).filter
        fun k => !order.contains k)
        = ((fs.map Prod.fst).filter fun k => !order.contains k)
    ∧ (∀ k ∈ objKeys (applyCustomOrder (.obj fs) order), k ∈ fs.map Prod.fst)
    ∧ (∀ k v, (k, v) ∈ fs →
        findField (objFields (applyCustomOrder (.obj fs) order)) k
          = some (applyCustomOrder v order)) := by
  have hkeys : objKeys (applyCustomOrder (.obj fs) order) =
      (orderedSelSpec (acoFields fs order) order []).map Prod.fst ++
        ((acoFields fs order).filter fun kv => !order.contains kv.1).map Prod.fst := by
    rw [objKeys, aco_obj_decomp, List.map_append]
  refine ⟨?_, ?_, ?_, ?_, ?_⟩
  · intro k1 k2 ho1 ho2 hlt hm1 hm2
    have hog1 : k1 ∈ (orderedSelSpec (acoFields fs order) order []).map Prod.fst :=
      (og_key_mem fs order k1).2 ⟨ho1, hm1⟩
    have hog2 : k2 ∈ (orderedSelSpec (acoFields fs order) order []).map Prod.fst :=
      (og_key_mem fs order k2).2 ⟨ho2, hm2⟩
    rw [hkeys, List.indexOf_append_of_mem hog1, List.indexOf_append_of_mem hog2]
    refine indexOf_lt_of_pairwise (orderedSelSpec_pairwise _ order []) hog1 hog2 ?_ ?_
    · rintro rfl
      exact Nat.lt_irrefl _ hlt
    · exact fun hgt => Nat.lt_asymm hlt hgt
  · intro k1 k2 ho1 hm1 ho2 hm2
    have hog1 : k1 ∈ (orderedSelSpec (acoFields fs order) order []).map Prod.fst :=
      (og_key_mem fs order k1).2 ⟨ho1, hm1⟩
    have hnog2 : k2 ∉ (orderedSelSpec (acoFields fs order) order []).map Prod.fst :=
      fun hk => ho2 ((og_key_mem fs order k2).1 hk).1
    rw [hkeys, List.indexOf_append_of_mem hog1, indexOf_append_of_not_mem hnog2]
    calc List.indexOf k1 ((orderedSelSpec (acoFields fs order) order []).map Prod.fst)
        < ((orderedSelSpec (acoFields fs order) order []).map Prod.fst).length :=
          List.indexOf_lt_length.2 hog1
      _ ≤ _ := Nat.le_add_right _ _
  · rw [hkeys, List.filter_append]
    have h1 : ((orderedSelSpec (acoFields fs order) order []).map Prod.fst).filter
        (fun k => !order.contains k) = [] := by
      rw [List.filter_eq_nil_iff]
      intro k hk
      have ho := ((og_key_mem fs order k).1 hk).1
      simp [ho]
    have h2 : (((acoFields fs order).filter fun kv =>
        !order.contains kv.1).map Prod.fst).filter (fun k => !order.contains k) =
        ((acoFields fs order).filter fun kv => !order.contains kv.1).map Prod.fst := by
      rw [List.filter_eq_self]
      intro k hk
      rw [rem_keys] at hk
      exact (List.mem_filter.1 hk).2
    rw [h1, h2, List.nil_append, rem_keys]
  · intro k hk
    rw [hkeys] at hk
    rcases List.mem_append.1 hk with h1 | h1
    · exact ((og_key_mem fs order k).1 h1).2
    · rw [rem_keys] at h1
      exact (List.mem_filter.1 h1).1
  · intro k v hm
    rw [aco_obj_decomp]
    by_cases ho : k ∈ order
    · exact findField_append_left _ (og_lookup h hm ho)
    · rw [findField_append_right _ (og_lookup_none ho)]
      exact rem_lookup h hm ho

/-- C3 witness: the custom order `["a", "b"]` on the concrete object
`{c: 3, a: 1, b: 2}` puts `a` before `b` and both before `c`. -/
theorem claim_C3_wit :
    (objKeys (applyCustomOrder
        (.obj [("c", .num 3), ("a", .num 1), ("b", .num 2)]) ["a", "b"])).indexOf "a" <
      (objKeys (applyCustomOrder
        (.obj [("c", .num 3), ("a", .num 1), ("b", .num 2)]) ["a", "b"])).indexOf "b"
    ∧ (objKeys (applyCustomOrder
        (.obj [("c", .num 3), ("a", .num 1), ("b", .num 2)]) ["a", "b"])).indexOf "b" <
      (objKeys (applyCustomOrder
        (.obj [("c", .num 3), ("a", .num 1), ("b", .num 2)]) ["a", "b"])).indexOf "c" :=
  ⟨(claim_C3 [("c", .num 3), ("a", .num 1), ("b", .num 2)] ["a", "b"] (by decide)).1
      "a" "b" (by decide) (by decide) (by decide) (by decide) (by decide),
    (claim_C3 [("c", .num 3), ("a", .num 1), ("b", .num 2)] ["a", "b"]
        (by decide)).2.1
      "b" "c" (by decide) (by decide) (by decide) (by decide)⟩

/-- C4 counterexample: the string `{"a":"%ZZ"}` fails percent-decoding
(`%ZZ` is a malformed escape), yet `decodeUriStrings` does not return
the original string: the undecoded fallback still looks like JSON,
parses, and is replaced by the parsed (and recursively decoded)
object. -/
theorem claim_C4_cex :
    decodeURIComponent "\x7b\"a\":\"%ZZ\"\x7d" = none
    ∧ decodeUriStrings (.str "\x7b\"a\":\"%ZZ\"\x7d") 10 =
        .obj [("a", .str "%ZZ")] :=
  ⟨rfl, rfl⟩

/-- C4 (amended): for a string leaf whose percent-decoding fails, the
string is kept undecoded — never partially decoded — and no exception
escapes; when that original string does not itself look like and parse
as embedded JSON, the exact original string is returned, while when it
does, it is unwrapped as embedded JSON (one budget unit spent) exactly
as a successfully decoded string would be. -/
theorem claim_C4 (s : String) (d : Int)
    (hfail : decodeURIComponent s = none) :
    (looksLikeJson s = false ∨ jsonParse s = none →
      decodeUriStrings (.str s) d = .str s)
    ∧ (∀ p, 0 < d → looksLikeJson s = true → jsonParse s = some p →
        decodeUriStrings (.str s) d = decodeUriStrings p (d - 1)) := by
  have hdec : tryDecodeURIComponent s = s := by
    rw [tryDecodeURIComponent, hfail]
    rfl
  constructor
  · intro hnp
    cases hn : d.toNat with
    | zero => rw [decodeUriStrings, hn]; rfl
    | succ n =>
        rw [decodeUriStrings, hn]
        simp only [decodeAux, decodeStep, hdec]
        rcases hnp with h1 | h1
        · rw [h1]
          simp
        · rw [h1]
          by_cases hl : looksLikeJson s = true <;> simp [hl]
  · intro p hd hl hp
    have hn : d.toNat = (d - 1).toNat + 1 := by omega
    rw [decodeUriStrings, hn]
    simp only [decodeAux, decodeStep, hdec, hl, hp, if_pos]
    rfl

/-- C4 witness: `%ZZ` itself fails decoding and does not look like
JSON, so it is returned exactly. -/
theorem claim_C4_wit : decodeUriStrings (.str "%ZZ") 10 = .str "%ZZ" :=
  (claim_C4 "%ZZ" 10 rfl).1 (Or.inl rfl)

theorem unwrapStepElems_le {count : Json → Nat} {c : Nat} :
    ∀ xs : List Json, (∀ x ∈ xs, unwrapStep count x ≤ c) →
      unwrapStepElems count xs ≤ c
  | [], _ => Nat.zero_le c
  | x :: xs, h => by
      simp only [unwrapStepElems]
      exact max_le (h x (List.mem_cons_self _ _))
        (unwrapStepElems_le xs fun y hy => h y (List.mem_cons_of_mem _ hy))

theorem unwrapStepFields_le {count : Json → Nat} {c : Nat} :
    ∀ fs : List (String × Json), (∀ kv ∈ fs, unwrapStep count kv.2 ≤ c) →
      unwrapStepFields count fs ≤ c
  | [], _ => Nat.zero_le c
  | (k, v) :: fs, h => by
      simp only [unwrapStepFields]
      exact max_le (h (k, v) (List.mem_cons_self _ _))
        (unwrapStepFields_le fs fun kv hkv => h kv (List.mem_cons_of_mem _ hkv))

theorem unwrapStep_le {count : Json → Nat} {c : Nat}
    (hcount : ∀ p, count p ≤ c) : ∀ j, unwrapStep count j ≤ c + 1 := by
  refine json_induction ?_ ?_ ?_ ?_ ?_ ?_
  · simp [unwrapStep]
  · intro b; simp [unwrapStep]
  · intro n; simp [unwrapStep]
  · intro s
    simp only [unwrapStep]
    by_cases hl : looksLikeJson (tryDecodeURIComponent s) = true
    · rw [if_pos hl]
      cases hp : jsonParse (tryDecodeURIComponent s) with
      | some parsed =>
          show 1 + count parsed ≤ c + 1
          have := hcount parsed
          omega
      | none =>
          show 0 ≤ c + 1
          exact Nat.zero_le _
    · rw [if_neg hl]
      exact Nat.zero_le _
  · intro xs hxs
    simp only [unwrapStep]
    exact unwrapStepElems_le xs hxs
  · intro fs hfs
    simp only [unwrapStep]
    exact unwrapStepFields_le fs hfs

theorem unwrapsAux_le : ∀ (n : Nat) (j : Json), unwrapsAux n j ≤ n
  | 0, j => by simp [unwrapsAux]
  | n + 1, j => by
      have hcount : ∀ p, unwrapsAux n p ≤ n := fun p => unwrapsAux_le n p
      simpa [unwrapsAux] using unwrapStep_le hcount j

/-- C5: a non-positive depth budget returns the value completely
unchanged (including a string value), and along any recursion path at
most `maxDepth` successful embedded-JSON unwraps are performed — the
budget is spent only on unwraps (`decodeUnwraps` mirrors the decoder's
recursion, counting one per unwrap and none for descending into arrays
or objects or for plain percent-decoding), so the recursion always
terminates within the budget. -/
theorem claim_C5 (j : Json) (d : Int) :
    (d ≤ 0 → decodeUriStrings j d = j) ∧ decodeUnwraps j d ≤ d.toNat := by
  constructor
  · intro hd
    rw [decodeUriStrings, Int.toNat_of_nonpos hd]
    rfl
  · rw [decodeUnwraps]
    exact unwrapsAux_le d.toNat j

theorem decodeStepElems_eq (u : Json → Json) (xs : List Json) :
    decodeStepElems u xs = xs.map (decodeStep u) := by
  induction xs with
  | nil => rfl
  | cons x xs ih => simp [decodeStepElems, ih]

theorem decodeStepFields_eq (u : Json → Json) (fs : List (String × Json)) :
    decodeStepFields u fs = fs.map fun kv => (kv.1, decodeStep u kv.2) := by
  induction fs with
  | nil => rfl
  | cons kv rest ih =>
      obtain ⟨k, v⟩ := kv
      simp [decodeStepFields, ih]

theorem decodeStepFields_keys (u : Json → Json) (fs : List (String × Json)) :
    (decodeStepFields u fs).map Prod.fst = fs.map Prod.fst := by
  rw [decodeStepFields_eq, List.map_map]
  exact List.map_congr_left fun kv _ => rfl

theorem stringFreeElems_mem {xs : List Json} (h : stringFreeElems xs = true) :
    ∀ x ∈ xs, stringFree x = true := by
  induction xs with
  | nil => simp
  | cons x xs ih =>
      simp only [stringFreeElems, Bool.and_eq_true] at h
      intro y hy
      rcases List.mem_cons.1 hy with rfl | hy
      · exact h.1
      · exact ih h.2 y hy

theorem stringFreeFields_mem {fs : List (String × Json)}
    (h : stringFreeFields fs = true) : ∀ kv ∈ fs, stringFree kv.2 = true := by
  induction fs with
  | nil => simp
  | cons kv rest ih =>
      obtain ⟨k, v⟩ := kv
      simp only [stringFreeFields, Bool.and_eq_true] at h
      intro kv' hkv'
      rcases List.mem_cons.1 hkv' with rfl | hkv'
      · exact h.1
      · exact ih h.2 kv' hkv'

theorem decodeAux_stringFree :
    ∀ (n : Nat) (j : Json), stringFree j = true → decodeAux n j = j := by
  intro n
  cases n with
  | zero => intro j _; rfl
  | succ m =>
      refine json_induction ?_ ?_ ?_ ?_ ?_ ?_
      · intro _; rfl
      · intro b _; rfl
      · intro k _; rfl
      · intro s hs
        simp [stringFree] at hs
      · intro xs hxs h
        show Json.arr (decodeStepElems (fun p => decodeAux m p) xs) = .arr xs
        rw [decodeStepElems_eq]
        have hall : ∀ x ∈ xs, decodeStep (fun p => decodeAux m p) x = x := by
          intro x hx
          have hfree := stringFreeElems_mem (by simpa [stringFree] using h) x hx
          exact hxs x hx hfree
        rw [List.map_congr_left hall]
        simp
      · intro fs hfs h
        show Json.obj (decodeStepFields (fun p => decodeAux m p) fs) = .obj fs
        rw [decodeStepFields_eq]
        have hall : ∀ kv ∈ fs,
            ((fun kv => (kv.1, decodeStep (fun p => decodeAux m p) kv.2)) kv) = kv := by
          intro kv hkv
          have hfree := stringFreeFields_mem (by simpa [stringFree] using h) kv hkv
          have := hfs kv hkv hfree
          obtain ⟨k, v⟩ := kv
          simpa using this
        rw [List.map_congr_left hall]
        simp

/-- C6: `decodeUriStrings` alters string leaves only: booleans, numbers
and `null` are returned identical at any budget; an object is returned
as an object with exactly the input's keys in the input's order (true
at every depth, the statement being universal in the field list); and a
value containing no string anywhere is returned bit-identical. -/
theorem claim_C6 (fs : List (String × Json)) (b : Bool) (n d : Int) (j : Json) :
    decodeUriStrings (.bool b) d = .bool b
    ∧ decodeUriStrings (.num n) d = .num n
    ∧ decodeUriStrings .null d = .null
    ∧ isObj (decodeUriStrings (.obj fs) d) = true
    ∧ objKeys (decodeUriStrings (.obj fs) d) = fs.map Prod.fst
    ∧ (stringFree j = true → decodeUriStrings j d = j) := by
  refine ⟨?_, ?_, ?_, ?_, ?_, ?_⟩
  · rw [decodeUriStrings]; cases d.toNat <;> rfl
  · rw [decodeUriStrings]; cases d.toNat <;> rfl
  · rw [decodeUriStrings]; cases d.toNat <;> rfl
  · rw [decodeUriStrings]
    cases d.toNat with
    | zero => rfl
    | succ m => rfl
  · rw [decodeUriStrings]
    cases d.toNat with
    | zero => rfl
    | succ m =>
        show ((decodeStepFields (fun p => decodeAux m p) fs).map Prod.fst) =
          fs.map Prod.fst
        exact decodeStepFields_keys _ fs
  · intro h
    rw [decodeUriStrings]
    exact decodeAux_stringFree _ j h

/-- C7 counterexample: the non-numeric segment `"length"` on an array
does not yield the NOT_FOUND sentinel — member access reaches the
array's own `length` property, and `getNestedValue` returns its value
(the element count) instead of `undefined`. -/
theorem claim_C7_cex :
    getNestedValue (.arr [.num 1, .num 2]) "length" = some (.num 2)
    ∧ getNestedValue (.arr [.num 1, .num 2]) "length" ≠ none :=
  ⟨rfl, fun h => Option.noConfusion
    ((rfl : some (Json.num 2) =
      getNestedValue (.arr [.num 1, .num 2]) "length").trans h)⟩

/-- C7 (amended): when the value reached so far is an array, a
single-segment path that is the canonical decimal form of a
non-negative integer indexes into the array (out-of-range indices give
NOT_FOUND); the segment `"length"` yields the array's element count;
and every other non-canonical segment yields NOT_FOUND (the model
leaves the array's inherited function-valued properties out, as they
are not JSON data). -/
theorem claim_C7 (xs : List Json) (seg : String)
    (hseg : jsSplitDot seg = [seg]) :
    (∀ i, toCanonicalIndex seg = some i →
      getNestedValue (.arr xs) seg = xs[i]?)
    ∧ (seg = "length" →
      getNestedValue (.arr xs) seg = some (.num xs.length))
    ∧ (toCanonicalIndex seg = none → seg ≠ "length" →
      getNestedValue (.arr xs) seg = none) := by
  have hg : getNestedValue (.arr xs) seg = jsGet (.arr xs) seg := by
    rw [getNestedValue, hseg]
    rfl
  refine ⟨?_, ?_, ?_⟩
  · intro i hi
    have hlen : seg ≠ "length" := by
      rintro rfl
      rw [(rfl : toCanonicalIndex "length" = none)] at hi
      exact Option.noConfusion hi
    rw [hg]
    simp [jsGet, hlen, hi]
  · rintro rfl
    rw [hg]
    simp [jsGet]
  · intro hn hl
    rw [hg]
    simp [jsGet, hl, hn]

/-- C7 witness: on the array `[5, 6]`, the canonical index `"1"`
resolves to the element, `"length"` resolves to the count 2, and the
non-numeric segment `"x"` resolves to NOT_FOUND. -/
theorem claim_C7_wit :
    getNestedValue (.arr [.num 5, .num 6]) "1" = some (.num 6)
    ∧ getNestedValue (.arr [.num 5, .num 6]) "length" = some (.num 2)
    ∧ getNestedValue (.arr [.num 5, .num 6]) "x" = none :=
  ⟨((claim_C7 [.num 5, .num 6] "1" rfl).1 1 rfl).trans rfl,
    (claim_C7 [.num 5, .num 6] "length" rfl).2.1 rfl,
    (claim_C7 [.num 5, .num 6] "x" rfl).2.2 rfl (by decide)⟩

/-- C8: `filterLines` returns exactly, in original relative order, the
trimmed text of the lines that are non-empty after trimming, parse as
JSON, and satisfy every filter: the output equals the filter of the
trimmed line list by that predicate (so nothing is reordered,
duplicated, deduplicated or truncated, and empty or unparsable lines
are silently dropped), and is in particular a sublist of the trimmed
input lines. -/
theorem claim_C8 (lines : List String) (filters : List Filter) :
    filterLines lines filters =
      ((lines.map jsTrim).filter fun t =>
        !(t == "") &&
          (match jsonParse t with
            | some j => matchesAllFilters j filters
            | none => false))
    ∧ (filterLines lines filters).Sublist (lines.map jsTrim) := by
  induction lines with
  | nil => exact ⟨rfl, List.Sublist.refl _⟩
  | cons line rest ih =>
      obtain ⟨ih1, ih2⟩ := ih
      have key : filterLines (line :: rest) filters =
          (if (!(jsTrim line == "") &&
              (match jsonParse (jsTrim line) with
                | some j => matchesAllFilters j filters
                | none => false)) = true
            then jsTrim line :: filterLines rest filters
            else filterLines rest filters) := by
        simp only [filterLines]
        by_cases h0 : jsTrim line = ""
        · simp [h0]
        · cases hp : jsonParse (jsTrim line) with
          | none => simp [h0, hp]
          | some j =>
              by_cases hm : matchesAllFilters j filters = true
              · simp [h0, hp, hm]
              · simp [h0, hp, hm]
      constructor
      · rw [key, List.map_cons, List.filter_cons]
        by_cases hcond : (!(jsTrim line == "") &&
            (match jsonParse (jsTrim line) with
              | some j => matchesAllFilters j filters
              | none => false)) = true
        · rw [if_pos hcond, if_pos hcond, ih1]
        · rw [if_neg hcond, if_neg hcond, ih1]
      · rw [key, List.map_cons]
        by_cases hcond : (!(jsTrim line == "") &&
            (match jsonParse (jsTrim line) with
              | some j => matchesAllFilters j filters
              | none => false)) = true
        · rw [if_pos hcond]
          exact ih2.cons₂ _
        · rw [if_neg hcond]
          exact ih2.cons _

/-- C9: in the `PreviewPanel.update` pipeline, a non-empty custom order
is applied and the automatic primitives-first reorder is not, even when
it is enabled (custom wins; the `reorderKeys` flag is immaterial); and
whenever URI decoding is enabled it runs after whichever reordering
policy ran, on the already-reordered value, with the default budget
10. -/
theorem claim_C9 (j : Json) (customOrder : List String)
    (reorderKeys uriDecode : Bool) (h : customOrder ≠ []) :
    previewTransform j customOrder reorderKeys uriDecode =
      (if uriDecode then decodeUriStrings (applyCustomOrder j customOrder) 10
        else applyCustomOrder j customOrder)
    ∧ previewTransform j customOrder reorderKeys uriDecode =
        previewTransform j customOrder false uriDecode
    ∧ (∀ (co : List String) (r : Bool),
        previewTransform j co r true =
          decodeUriStrings (previewTransform j co r false) 10) := by
  have hlen : 0 < customOrder.length := List.length_pos.2 h
  refine ⟨?_, ?_, ?_⟩
  · rw [previewTransform]
    simp [hlen]
  · rw [previewTransform, previewTransform]
    simp [hlen]
  · intro co r
    rw [previewTransform, previewTransform]
    simp

/-- C9 witness: with custom order `["b"]` and the automatic reorder
toggle on, the custom order alone is applied before decoding. -/
theorem claim_C9_wit :
    previewTransform (.obj [("a", .num 1), ("b", .num 2)]) ["b"] true true =
      decodeUriStrings
        (applyCustomOrder (.obj [("a", .num 1), ("b", .num 2)]) ["b"]) 10 :=
  (claim_C9 (.obj [("a", .num 1), ("b", .num 2)]) ["b"] true true
    (by decide)).1

/-- C10: `matchesAllFilters` compares the resolved value through
JavaScript `String(·)` coercion even when the dotted path resolves to a
container, so container-valued keys are filterable rather than
rejected: a resolved array matches exactly when the filter value equals
the comma-join of its elements' string forms (`null` elements joining
as the empty string), and a resolved plain object matches exactly when
the filter value is `"[object Object]"`; the remaining filters are
evaluated as usual. -/
theorem claim_C10 (j : Json) (key fval : String) (more : List Filter)
    (xs : List Json) (gs : List (String × Json)) :
    (getNestedValue j key = some (.arr xs) →
      (matchesAllFilters j (⟨key, fval⟩ :: more) = true ↔
        fval = String.intercalate "," (jsStringElems xs)
          ∧ matchesAllFilters j more = true))
    ∧ (getNestedValue j key = some (.obj gs) →
      (matchesAllFilters j (⟨key, fval⟩ :: more) = true ↔
        fval = "[object Object]" ∧ matchesAllFilters j more = true)) := by
  constructor
  · intro h
    simp only [matchesAllFilters, h, jsString]
    by_cases he : String.intercalate "," (jsStringElems xs) = fval
    · simp [he]
    · simp [he, Ne.symm he]
  · intro h
    simp only [matchesAllFilters, h, jsString]
    by_cases he : "[object Object]" = fval
    · simp [he]
    · simp [he, Ne.symm he]

/-! ### Concrete scenarios, matching the repository's test suite -/

theorem scenario_reorder_primitives_first :
    reorderJsonKeys (.obj [("zeta", .obj [("nested", .bool true)]),
        ("alpha", .num 1), ("beta", .str "hello"),
        ("gamma", .arr [.num 1, .num 2]), ("delta", .null)]) =
      .obj [("alpha", .num 1), ("beta", .str "hello"), ("delta", .null),
        ("zeta", .obj [("nested", .bool true)]),
        ("gamma", .arr [.num 1, .num 2])] := rfl

theorem scenario_custom_order :
    applyCustomOrder (.obj [("name", .str "Alice"), ("id", .num 1),
        ("status", .str "active"), ("email", .str "a@b.com"),
        ("role", .str "admin")]) ["id", "name", "email"] =
      .obj [("id", .num 1), ("name", .str "Alice"), ("email", .str "a@b.com"),
        ("status", .str "active"), ("role", .str "admin")] := rfl

theorem scenario_filter_lines :
    filterLines ["\x7b\"id\":1,\"status\":\"active\"\x7d",
        "\x7b\"id\":2,\"status\":\"inactive\"\x7d"]
      [⟨"status", "active"⟩] = ["\x7b\"id\":1,\"status\":\"active\"\x7d"] := rfl

theorem scenario_decode_url :
    decodeUriStrings (.str "https%3A%2F%2Fexample.com") 10 =
      .str "https://example.com" := rfl

theorem scenario_decode_embedded :
    decodeUriStrings (.str "%7B%22key%22%3A%22value%22%7D") 10 =
      .obj [("key", .str "value")] := rfl

theorem scenario_decode_depth_exhausted :
    decodeUriStrings
        (.str "\x7b\"data\":\"\x7b\\\"deep\\\":true\x7d\"\x7d") 1 =
      .obj [("data", .str "\x7b\"deep\":true\x7d")] := rfl

theorem scenario_decode_invalid_escape_nested :
    decodeUriStrings (.obj [("bad", .str "%ZZ"),
        ("nested", .obj [("also_bad", .str "%")])]) 10 =
      .obj [("bad", .str "%ZZ"),
        ("nested", .obj [("also_bad", .str "%")])] := rfl

theorem scenario_nested_path :
    getNestedValue (.obj [("user", .obj [("name", .str "Alice"),
        ("email", .str "alice@example.com")])]) "user.email" =
      some (.str "alice@example.com") := rfl

theorem scenario_array_index_path :
    getNestedValue (.obj [("tags", .arr [.str "admin", .str "user"])])
      "tags.0" = some (.str "admin") := rfl

theorem scenario_null_is_not_missing :
    getNestedValue (.obj [("name", .null)]) "name" = some .null
    ∧ getNestedValue (.obj [("name", .null)]) "name.something" = none
    ∧ getNestedValue (.obj []) "a.b.c" = none := ⟨rfl, rfl, rfl⟩

end NdjsonPreview
